import Mathlib

/-!
# Verification of the perp-folio normalization and risk-calculation core

Shallow embedding of the position-normalization core of the `perp-folio`
repository: the decimal-string utilities (`src/utils/formatting.ts`), the
risk calculators (`src/utils/positionCalc.ts`, `src/providers/pacifica/utils.ts`,
`src/providers/dydx/normalizer.ts`), the per-venue normalizers, the side
normalization (`src/utils/chains.ts`) and the provider fetch-task flows
(`createProvider` factory, dYdX, Pacifica).

JavaScript numbers are modelled as `JsNum := Option ℚ`, where `none` stands
for a non-finite value (`NaN` — produced by a failed `parseFloat`) and
`some q` for a finite numeric value; `NaN` propagates through arithmetic and
makes every comparison false, as in the source language.  Decimal strings are
modelled as `List Char`.
-/

namespace PerpFolio

/-- A JavaScript number: `none` is `NaN` (non-finite), `some q` a finite value. -/
abbrev JsNum := Option ℚ

/-- `a <= b` on JS numbers: any comparison with `NaN` is false. -/
def jsLe (a b : JsNum) : Bool :=
  match a, b with
  | some x, some y => x ≤ y
  | _, _ => false

/-- `a > b` on JS numbers: any comparison with `NaN` is false. -/
def jsGt (a b : JsNum) : Bool :=
  match a, b with
  | some x, some y => y < x
  | _, _ => false

/-- Strict equality `a === b` against a finite constant. -/
def jsEq (a : JsNum) (b : ℚ) : Bool :=
  match a with
  | some x => x = b
  | none => false

/-- `Math.abs`: `NaN` stays `NaN`. -/
def jsAbs (a : JsNum) : JsNum := a.map (fun q => |q|)

/-- Subtraction on JS numbers; `NaN` propagates. -/
def jsSub (a b : JsNum) : JsNum :=
  match a, b with
  | some x, some y => some (x - y)
  | _, _ => none

/-- Addition on JS numbers; `NaN` propagates. -/
def jsAdd (a b : JsNum) : JsNum :=
  match a, b with
  | some x, some y => some (x + y)
  | _, _ => none

/-- Multiplication on JS numbers; `NaN` propagates. -/
def jsMul (a b : JsNum) : JsNum :=
  match a, b with
  | some x, some y => some (x * y)
  | _, _ => none

/-- Division on JS numbers; `NaN` propagates.  Division by zero yields an
infinite value in the source; it is modelled as `none` here and is only ever
reached behind the source's explicit `=== 0` guards. -/
def jsDiv (a b : JsNum) : JsNum :=
  match a, b with
  | some x, some y => if y = 0 then none else some (x / y)
  | _, _ => none

/-- Position side, `'long' | 'short'` (`src/utils/positionCalc.ts`). -/
inductive PositionSide where
  | long
  | short
deriving DecidableEq, Repr

/-! ## RiskCalculator: `src/utils/positionCalc.ts` -/

/-- `calculatePnl` from `src/utils/positionCalc.ts` (lines 20–30):
long → `(markPrice - entryPrice) * absSize`, short → `(entryPrice - markPrice) * absSize`. -/
def calculatePnl (side : PositionSide) (entryPrice markPrice size : ℚ) : ℚ :=
  let absSize := |size|
  match side with
  | .long => (markPrice - entryPrice) * absSize
  | .short => (entryPrice - markPrice) * absSize

/-- `calculatePositionValue` from `src/utils/positionCalc.ts`. -/
def calculatePositionValue (size price : ℚ) : ℚ := |size| * price

/-- `calculateMargin` from `src/utils/positionCalc.ts` (lines 49–69):
isolated with a positive API margin uses the API margin; otherwise
`positionValue / leverage`, or `0` when `leverage ≤ 0`. -/
def calculateMargin (isolated : Bool) (apiMargin positionValue leverage : ℚ) : ℚ :=
  if isolated ∧ 0 < apiMargin then apiMargin
  else if leverage ≤ 0 then 0
  else positionValue / leverage

/-- `calculateRoi` from `src/utils/positionCalc.ts`: `null` when margin is `0`. -/
def calculateRoi (pnl margin : ℚ) : Option ℚ :=
  if margin = 0 then none else some ((pnl / margin) * 100)

/-- `getSideFromSignedSize` from `src/utils/positionCalc.ts`:
`signedSize >= 0 ? 'long' : 'short'`; a `NaN` size compares false and yields short. -/
def getSideFromSignedSize (signedSize : JsNum) : PositionSide :=
  match signedSize with
  | some q => if 0 ≤ q then .long else .short
  | none => .short

/-- `isZeroPosition` from `src/utils/positionCalc.ts` (lines 139–142), applied to
the already-parsed numeric size: zero or non-finite. -/
def isZeroPosition (size : JsNum) : Bool :=
  match size with
  | some q => q = 0
  | none => true

/-! ## Pacifica risk utilities: `src/providers/pacifica/utils.ts` -/

/-- `calculatePnl` from `src/providers/pacifica/utils.ts` (lines 13–23). -/
def pacificaCalculatePnl (side : PositionSide) (entryPrice markPrice amount : ℚ) : ℚ :=
  let absAmount := |amount|
  match side with
  | .long => (markPrice - entryPrice) * absAmount
  | .short => (entryPrice - markPrice) * absAmount

/-- `calculatePositionValue` from `src/providers/pacifica/utils.ts`. -/
def pacificaCalculatePositionValue (amount markPrice : ℚ) : ℚ := |amount| * markPrice

/-- `calculateMarginUsed` from `src/providers/pacifica/utils.ts` (lines 51–62). -/
def calculateMarginUsed (isolated : Bool) (apiMargin positionValue leverage : ℚ) : ℚ :=
  if isolated ∧ 0 < apiMargin then apiMargin
  else if leverage ≤ 0 then 0
  else positionValue / leverage

/-! ## dYdX cross-margin liquidation price: `src/providers/dydx/normalizer.ts` -/

/-- The dYdX raw position side (`'LONG' | 'SHORT'`). -/
inductive DydxSide where
  | LONG
  | SHORT
deriving DecidableEq, Repr

/-- `calculateLiquidationPrice` from `src/providers/dydx/normalizer.ts`
(lines 18–51), over JS numbers.  Long:
`(entryPrice * size - availableEquity) / (size * (1 - mmf))`; short:
`(availableEquity + entryPrice * size) / (size * (1 + mmf))`; `null` when the
size is zero, the available equity is non-positive, a denominator is zero, or
the resulting price is non-positive.  The source's early `return null`s and
its single trailing `liquidationPrice <= 0` guard are flattened into the
if-trees of the two branches. -/
def calculateLiquidationPrice (side : DydxSide) (size entryPrice availableEquity
    maintenanceMarginFraction : JsNum) : Option JsNum :=
  if jsEq size 0 ∨ jsLe availableEquity (some 0) then none
  else
    match side with
    | .LONG =>
      let denominator := jsMul size (jsSub (some 1) maintenanceMarginFraction)
      if jsEq denominator 0 then none
      else
        let liquidationPrice := jsDiv (jsSub (jsMul entryPrice size) availableEquity) denominator
        if jsLe liquidationPrice (some 0) then none else some liquidationPrice
    | .SHORT =>
      let denominator := jsMul size (jsAdd (some 1) maintenanceMarginFraction)
      if jsEq denominator 0 then none
      else
        let liquidationPrice := jsDiv (jsAdd availableEquity (jsMul entryPrice size)) denominator
        if jsLe liquidationPrice (some 0) then none else some liquidationPrice

/-- The liquidation-price part of `normalizePosition` in
`src/providers/dydx/normalizer.ts` (lines 91–102):
`availableEquity = accountEquity - otherPositionsMaintenanceMargin`, and the
calculation runs only when it is positive. -/
def dydxLiquidationPrice (side : DydxSide) (absSize entryPrice accountEquity
    otherPositionsMaintenanceMargin maintenanceMarginFraction : JsNum) : Option JsNum :=
  let availableEquity := jsSub accountEquity otherPositionsMaintenanceMargin
  if jsGt availableEquity (some 0) then
    calculateLiquidationPrice side absSize entryPrice availableEquity
      maintenanceMarginFraction
  else none

/-! ## DecimalMath: `src/utils/formatting.ts`

Decimal strings are `List Char`.  Each regex `replace` of the source is
embedded as an explicit list function with the same behaviour on the
reachable input shapes (optional sign, digit runs, at most one dot). -/

/-- Decimal strings, as lists of characters. -/
abbrev Str := List Char

/-- Split off a single leading `'-'` sign (matching the sources' `value[0] === '-'`
checks and the regexes' `-?` prefix). -/
def stripSign (s : Str) : Bool × Str :=
  match s with
  | '-' :: t => (true, t)
  | _ => (false, s)

/-- Re-attach a sign: `neg ? '-' + s : s`. -/
def withSign (neg : Bool) (s : Str) : Str :=
  if neg then '-' :: s else s

/-- `String.prototype.trim()`: drop whitespace from both ends. -/
def jsTrim (s : Str) : Str :=
  ((s.dropWhile Char.isWhitespace).reverse.dropWhile Char.isWhitespace).reverse

/-- The replace `/^(-?)0+(?=\d)/ → '$1'` of `formatDecimalString`: remove a
leading zero run when (after backtracking one zero if needed) a digit follows.
`"00123" → "123"`, `"000" → "0"`, `"00.5" → "0.5"`, `"0.5"` unchanged. -/
def removeLeadingZeros (s : Str) : Str :=
  let (neg, t) := stripSign s
  let z := t.takeWhile (fun c => c = '0')
  let r := t.dropWhile (fun c => c = '0')
  if z.isEmpty then s
  else
    match r with
    | c :: _ => if c.isDigit then withSign neg r
                else if 2 ≤ z.length then withSign neg ('0' :: r) else s
    | [] => if 2 ≤ z.length then withSign neg ['0'] else s

/-- Everything before the first `'.'`, and (if a dot occurs) everything after it. -/
def splitAtDot : Str → Str × Option Str
  | [] => ([], none)
  | c :: t =>
    if c = '.' then ([], some t)
    else
      let (a, b) := splitAtDot t
      (c :: a, b)

/-- Drop a trailing run of `'0'`s. -/
def stripTrailingZeroRun (s : Str) : Str :=
  (s.reverse.dropWhile (fun c => c = '0')).reverse

/-- The replace `/\.0*$|(\.\d+?)0+$/ → '$1'` of `formatDecimalString`: strip
trailing zeros of the fractional part, removing the dot as well when the whole
fractional part is zeros.  `"1.2000" → "1.2"`, `"1.000" → "1"`, `"12." → "12"`. -/
def removeTrailingZeros (s : Str) : Str :=
  match splitAtDot s with
  | (_, none) => s
  | (a, some f) =>
    let f₁ := stripTrailingZeroRun f
    if f₁.isEmpty then a else a ++ '.' :: f₁

/-- The replace `/^(-?)\./ → '$10.'` of `formatDecimalString`: `".5" → "0.5"`. -/
def addLeadingZeroDot (s : Str) : Str :=
  match s with
  | '.' :: t => '0' :: '.' :: t
  | '-' :: '.' :: t => '-' :: '0' :: '.' :: t
  | _ => s

/-- The replace `/^-?$/ → '0'` of `formatDecimalString`: `""`/`"-"` → `"0"`. -/
def emptyToZero (s : Str) : Str :=
  if s = [] ∨ s = ['-'] then ['0'] else s

/-- The replace `/^-0$/ → '0'` of `formatDecimalString`. -/
def negZeroToZero (s : Str) : Str :=
  if s = ['-', '0'] then ['0'] else s

/-- `formatDecimalString` from `src/utils/formatting.ts` (lines 16–24): trim,
then the five `replace` steps in source order. -/
def formatDecimalString (s : Str) : Str :=
  negZeroToZero (emptyToZero (addLeadingZeroDot (removeTrailingZeros
    (removeLeadingZeros (jsTrim s)))))

/-- The `(?:\.\d{0,decimals})?` group of the `toFixedTruncate` regex: if the
remainder starts with a dot, the dot and up to `decimals` following digits. -/
def fracMatch (rest : Str) (decimals : ℕ) : Str :=
  match rest with
  | '.' :: u => '.' :: (u.takeWhile Char.isDigit).take decimals
  | _ => []

/-- The greedy prefix match of `/^-?(?:\d+)?(?:\.\d{0,decimals})?/` used by
`toFixedTruncate`: an optional sign, a maximal digit run, then — if a dot
follows — the dot and up to `decimals` following digits. -/
def toFixedMatch (s : Str) (decimals : ℕ) : Str :=
  let (neg, t) := stripSign s
  let intPart := t.takeWhile Char.isDigit
  let rest := t.dropWhile Char.isDigit
  withSign neg (intPart ++ fracMatch rest decimals)

/-- `toFixedTruncate` from `src/utils/formatting.ts` (lines 29–38): negative
`decimals` and an empty (falsy) match return the input unchanged; otherwise the
match is cleaned by `formatDecimalString`. -/
def toFixedTruncate (s : Str) (decimals : ℤ) : Str :=
  if decimals < 0 then s
  else
    let result := toFixedMatch s decimals.toNat
    if result = [] then s else formatDecimalString result

/-- `formatDecimals` from `src/utils/formatting.ts` (lines 128–130). -/
def formatDecimals (value : Str) (decimals : ℤ) : Str :=
  toFixedTruncate value decimals

/-- `digitsToNat`: numeric value of a digit run. -/
def digitsToNat (s : Str) : ℕ :=
  s.foldl (fun a c => 10 * a + (c.toNat - '0'.toNat)) 0

/-- `s` contains a digit other than `'0'`.  For a decimal-shaped string this
is exactly `Number(s) ≠ 0` (with `Number("") = 0`, as in JavaScript). -/
def hasNonZeroDigit (s : Str) : Bool :=
  s.any (fun c => c.isDigit && c != '0')

/-- `Number(s)` is a (finite) number rather than `NaN`: `s` is of the shape
`digits* ('.' digits*)?` with a digit on at least one side of the dot, or the
empty string (`Number("") = 0`). -/
def decimalShaped (s : Str) : Bool :=
  let intPart := s.takeWhile Char.isDigit
  let rest := s.dropWhile Char.isDigit
  match rest with
  | [] => true
  | '.' :: u => u.all Char.isDigit ∧ ¬ (intPart = [] ∧ u = [])
  | _ => false

/-- `log10Floor` from `src/utils/formatting.ts` (lines 43–57): position of the
most significant digit.  `none` models the source's `-Infinity` result, i.e.
`Number(abs)` is zero or `NaN`.  The integer part's leading zeros are stripped
(`int.replace(/^0+/, '')`); for a pure fraction the leading zeros of the
decimal part are counted.  The `Number(int) !== 0` test is the
`hasNonZeroDigit` check, exact for the decimal-shaped strings that reach this
branch. -/
def log10Floor (s : Str) : Option ℤ :=
  let abs := (stripSign s).2
  if ¬ decimalShaped abs ∨ ¬ hasNonZeroDigit abs then none
  else
    let (intPart, decPart) := splitAtDot abs
    if hasNonZeroDigit intPart then
      some ((intPart.dropWhile (fun c => c = '0')).length - 1)
    else
      let leadingZeros := ((decPart.getD []).takeWhile (fun c => c = '0')).length
      some (-(leadingZeros + 1 : ℤ))

/-- The first two components of `abs.split('.')` (the source destructures
`const [intRaw, dec = ''] = abs.split('.')`, discarding later components). -/
def splitDotFirstTwo (s : Str) : Str × Option Str :=
  match splitAtDot s with
  | (a, none) => (a, none)
  | (a, some r) => (a, some (r.takeWhile (fun c => c ≠ '.')))

/-- `multiplyByPow10` from `src/utils/formatting.ts` (lines 62–88): shift the
decimal point by `exp` places and clean up. -/
def multiplyByPow10 (value : Str) (exp : ℤ) : Str :=
  if exp = 0 then formatDecimalString value
  else
    let (neg, abs) := stripSign value
    let (intRaw, decOpt) := splitDotFirstTwo abs
    let dec := decOpt.getD []
    let int := if intRaw = [] then ['0'] else intRaw
    let result : Str :=
      if 0 < exp then
        if (dec.length : ℤ) ≤ exp then
          int ++ dec ++ List.replicate (exp - dec.length).toNat '0'
        else
          int ++ dec.take exp.toNat ++ '.' :: dec.drop exp.toNat
      else
        let absExp := (-exp).toNat
        if int.length ≤ absExp then
          '0' :: '.' :: (List.replicate (absExp - int.length) '0' ++ int ++ dec)
        else
          int.take (int.length - absExp) ++ '.' :: (int.drop (int.length - absExp) ++ dec)
    formatDecimalString (withSign neg result)

/-- `trunc` from `src/utils/formatting.ts` (lines 93–96): keep the part before
the dot (`value.slice(0, dotIndex) || '0'`). -/
def truncInt (value : Str) : Str :=
  match splitAtDot value with
  | (_, none) => value
  | (a, some _) => if a = [] then ['0'] else a

/-- The test `/^-?0+(\.0*)?$/` used by `toPrecisionTruncate`. -/
def isAllZeroString (s : Str) : Bool :=
  let t := (stripSign s).2
  let z := t.takeWhile (fun c => c = '0')
  let r := t.dropWhile (fun c => c = '0')
  ¬ z.isEmpty ∧ (r = [] ∨ (r.head? = some '.' ∧ r.tail.all (fun c => c = '0')))

/-- `toPrecisionTruncate` from `src/utils/formatting.ts` (lines 101–116):
truncate to `precision` significant figures by shifting, truncating the
integer part, and shifting back.  When `log10Floor` yields `-Infinity`
(garbage or unreachable zero), the source's `'0'.repeat(Infinity)` throws a
`RangeError`; that outcome is modelled as `none`. -/
def toPrecisionTruncate (value : Str) (precision : ℤ) : Option Str :=
  if precision < 1 then some value
  else if isAllZeroString value then some ['0']
  else
    let (neg, abs) := stripSign value
    match log10Floor abs with
    | none => none
    | some magnitude =>
      let shiftAmount := precision - magnitude - 1
      let shifted := multiplyByPow10 abs shiftAmount
      let truncated := truncInt shifted
      let result := multiplyByPow10 truncated (-shiftAmount)
      some (formatDecimalString (withSign neg result))

/-- The test `/^-?\d+$/` of `formatPrice`: an integer-formatted string. -/
def isIntegerString (s : Str) : Bool :=
  let t := (stripSign s).2
  ¬ t.isEmpty ∧ t.all Char.isDigit

/-- `formatPrice` from `src/utils/formatting.ts` (lines 152–166):
integer-formatted prices only pass through the cleanup; other prices are
truncated to `max(6 - szDecimals, 0)` decimal places and then to 5 significant
figures.  `none` is the propagated `RangeError` of `toPrecisionTruncate`. -/
def formatPrice (price : Str) (szDecimals : ℤ) : Option Str :=
  let trimmed := jsTrim price
  if isIntegerString trimmed then some (formatDecimalString trimmed)
  else
    let maxDecimals := max (6 - szDecimals) 0
    let result := toFixedTruncate trimmed maxDecimals
    toPrecisionTruncate result 5

/-! ## `parseFloat` and side normalization -/

/-- The optional-sign step of `parseFloat`: consume one leading `'-'` or
`'+'` and report whether the value is negated. -/
def parseSign (t : Str) : Bool × Str :=
  match t with
  | '-' :: v => (true, v)
  | '+' :: v => (false, v)
  | _ => (false, t)

/-- `parseFloat` on a decimal string: skip leading whitespace, an optional
sign, a digit run and an optional fraction; the longest such prefix is the
value, and `NaN` (`none`) results when no digit is found.  (Exponent and
hexadecimal forms do not occur in this code base.) -/
def parseFloatQ (s : Str) : JsNum :=
  let t := s.dropWhile Char.isWhitespace
  let (neg, u) := parseSign t
  let intPart := u.takeWhile Char.isDigit
  let rest := u.dropWhile Char.isDigit
  let fracPart : Str :=
    match rest with
    | '.' :: w => w.takeWhile Char.isDigit
    | _ => []
  if intPart = [] ∧ fracPart = [] then none
  else
    let value : ℚ :=
      (digitsToNat intPart : ℚ) + (digitsToNat fracPart : ℚ) / (10 : ℚ) ^ fracPart.length
    some (if neg then -value else value)

/-- `side.toLowerCase().trim()` (`src/utils/chains.ts`, line 25). -/
def lowerTrim (s : Str) : Str := jsTrim (s.map Char.toLower)

/-- The recognized long tokens of `normalizeSide`. -/
def longTokens : List Str := ["long".toList, "buy".toList, "bid".toList]

/-- The recognized short tokens of `normalizeSide`. -/
def shortTokens : List Str := ["short".toList, "sell".toList, "ask".toList]

/-- `normalizeSide` from `src/utils/chains.ts` (lines 24–38): lowercase and
trim, map the recognized buy/sell vocabularies, and default to long. -/
def normalizeSide (side : Str) : PositionSide :=
  let normalized := lowerTrim side
  if normalized ∈ longTokens then .long
  else if normalized ∈ shortTokens then .short
  else .long

/-! ## Normalizer outputs, restricted to the fields the invariants speak about

Each embedded normalizer carries the `side`, `size` and `liquidationPrice`
fields of the `NormalizedPosition` it produces.  Where the source stores
`x.toString()` of a computed number, the numeric value is kept (`JsNum`);
where it stores a raw string verbatim, the string is kept. -/

/-- Raw Aster position fields used by its normalizer
(`src/providers/aster/normalizer.ts`). -/
structure AsterRawFields where
  positionAmt : Str
  liquidationPrice : Str

/-- The `side`/`size`/`liquidationPrice` fields produced by the Aster
normalizer.  `sizeVal` is the value of the produced `size` string
(`absSize.toString()`); `liquidationPrice` is `none` for `null`, and otherwise
the value of the stored string (`some none` models the `"NaN"` string). -/
structure AsterNormalizedFields where
  side : PositionSide
  sizeVal : JsNum
  liquidationPrice : Option JsNum

/-- `normalizePosition` from `src/providers/aster/normalizer.ts` (lines 12–62),
restricted to the fields above.  Note the truthiness test on the raw
`liquidationPrice` string: only the empty string maps to `null`; `"0"` is
truthy and is parsed and stored. -/
def normalizeAsterFields (p : AsterRawFields) : AsterNormalizedFields :=
  let size := parseFloatQ p.positionAmt
  let absSize := jsAbs size
  let liquidationPrice : Option JsNum :=
    if p.liquidationPrice ≠ [] then some (parseFloatQ p.liquidationPrice) else none
  { side := getSideFromSignedSize size
    sizeVal := absSize
    liquidationPrice := liquidationPrice }

/-- Raw dYdX position fields (with enrichment metadata) used by its normalizer
(`src/providers/dydx/normalizer.ts`). -/
structure DydxRawFields where
  side : DydxSide
  size : Str
  entryPrice : Str
  accountEquity : JsNum
  otherPositionsMaintenanceMargin : JsNum
  maintenanceMarginFraction : JsNum

/-- The `side`/`size`/`liquidationPrice` fields produced by the dYdX
normalizer (`size` is `absSize.toString()`, `liquidationPrice` a computed
number rendered with `toString`, or `null`). -/
structure DydxNormalizedFields where
  side : PositionSide
  sizeVal : JsNum
  liquidationPrice : Option JsNum

/-- `normalizePosition` from `src/providers/dydx/normalizer.ts` (lines 56–127),
restricted to the fields above. -/
def normalizeDydxFields (raw : DydxRawFields) : DydxNormalizedFields :=
  let size := parseFloatQ raw.size
  let absSize := jsAbs size
  let entryPrice := parseFloatQ raw.entryPrice
  { side := match raw.side with | .LONG => .long | .SHORT => .short
    sizeVal := absSize
    liquidationPrice :=
      dydxLiquidationPrice raw.side absSize entryPrice raw.accountEquity
        raw.otherPositionsMaintenanceMargin raw.maintenanceMarginFraction }

/-- Raw HyperLiquid position fields used by its normalizer
(`src/providers/hyperliquid.ts`): the signed size string `szi` and the
venue-reported liquidation price string. -/
structure HyperliquidRawFields where
  szi : Str
  liquidationPx : Str

/-- The `side`/`size`/`liquidationPrice` fields produced by the HyperLiquid
normalizer: `size` is `Math.abs(parseFloat(szi)).toString()`, and the
liquidation price string passes through verbatim. -/
structure HyperliquidNormalizedFields where
  side : PositionSide
  sizeVal : JsNum
  liquidationPrice : Str

/-- `normalizePosition` from `src/providers/hyperliquid.ts` (lines 35–61),
restricted to the fields above (`side: size >= 0 ? 'long' : 'short'`). -/
def normalizeHyperliquidFields (p : HyperliquidRawFields) : HyperliquidNormalizedFields :=
  let size := parseFloatQ p.szi
  { side := getSideFromSignedSize size
    sizeVal := jsAbs size
    liquidationPrice := p.liquidationPx }

/-- Raw Lighter position fields used by its normalizer
(`src/providers/lighter/normalizer.ts`). -/
structure LighterRawFields where
  sign : ℤ
  position : Str
  liquidation_price : Str

/-- The `side`/`size`/`liquidationPrice` fields produced by the Lighter
normalizer: both `size` and `liquidationPrice` are raw strings passed through
verbatim (`size: raw.position`, `liquidationPrice: raw.liquidation_price`). -/
structure LighterNormalizedFields where
  side : PositionSide
  size : Str
  liquidationPrice : Str

/-- `normalizePosition` from `src/providers/lighter/normalizer.ts`
(lines 7–56), restricted to the fields above (`side: raw.sign === 1 ?
'long' : 'short'`). -/
def normalizeLighterFields (raw : LighterRawFields) : LighterNormalizedFields :=
  { side := if raw.sign = 1 then .long else .short
    size := raw.position
    liquidationPrice := raw.liquidation_price }

/-- Raw Pacifica position fields used by its normalizer
(`src/providers/pacifica/normalizer.ts`).  `liquidation_price` is not declared
on the raw type; at runtime it is a string or absent (`none`). -/
structure PacificaRawFields where
  side : Str
  amount : Str
  liquidation_price : Option Str

/-- The `side`/`size`/`liquidationPrice` fields produced by the Pacifica
normalizer: `size` is the raw `amount` string passed through verbatim
(`size: raw.amount`), `liquidationPrice` the raw field passed through. -/
structure PacificaNormalizedFields where
  side : PositionSide
  size : Str
  liquidationPrice : Option Str

/-- `normalizePosition` from `src/providers/pacifica/normalizer.ts`
(lines 9–78), restricted to the fields above. -/
def normalizePacificaFields (raw : PacificaRawFields) : PacificaNormalizedFields :=
  { side := normalizeSide raw.side
    size := raw.amount
    liquidationPrice := raw.liquidation_price }

/-! ## Provider fetch tasks: zero filtering and metadata fetches

Each task is modelled as a pure function from the fetched raw positions to
the enriched positions it would pass to normalization, paired with a flag
recording whether the metadata fetch was performed. -/

/-- The `fetchPositions` built by the `createProvider` factory
(`src/providers/base/index.ts`): filter zero/non-finite sizes, return early
(without fetching metadata) when none survive, otherwise fetch metadata and
enrich.  `getPositionSize` yields the already-parsed numeric size. -/
def createProviderFetchPositions {Raw Enriched Meta : Type}
    (getPositionSize : Raw → JsNum) (metadata : Meta)
    (enrichPosition : Raw → Meta → Enriched)
    (rawPositions : List Raw) : List Enriched × Bool :=
  let nonZeroPositions := rawPositions.filter (fun p => ! isZeroPosition (getPositionSize p))
  if nonZeroPositions.isEmpty then ([], false)
  else (nonZeroPositions.map (fun p => enrichPosition p metadata), true)

/-- The dYdX `fetchPositions` task (`src/providers/dydx/index.ts`, lines
24–85): positions, subaccount data and metadata are fetched together in one
`Promise.all`, so the metadata fetch happens regardless of the zero filter;
the filter then runs before enrichment/normalization. -/
def dydxFetchPositions {Raw Enriched Meta : Type}
    (getSize : Raw → JsNum) (metadata : Meta)
    (enrich : Raw → Meta → Enriched)
    (rawPositions : List Raw) : List Enriched × Bool :=
  let nonZeroPositions := rawPositions.filter (fun p => ! isZeroPosition (getSize p))
  if nonZeroPositions.isEmpty then ([], true)
  else (nonZeroPositions.map (fun p => enrich p metadata), true)

/-- The Pacifica `fetchPositions` task (`src/providers/pacifica/index.ts`,
lines 29–65): there is no per-position size filter — only an early return when
the positions array is empty; otherwise metadata is fetched and every raw
position (zero-sized or not) is enriched. -/
def pacificaFetchPositions {Raw Enriched Meta : Type}
    (metadata : Meta) (enrich : Raw → Meta → Enriched)
    (positions : List Raw) : List Enriched × Bool :=
  if positions.isEmpty then ([], false)
  else (positions.map (fun p => enrich p metadata), true)

/-! ## Character and list facts -/

theorem isDigit_ne_dot {c : Char} (h : c.isDigit = true) : c ≠ '.' := by
  intro hc
  subst hc
  exact absurd h (by decide)

theorem isDigit_ne_minus {c : Char} (h : c.isDigit = true) : c ≠ '-' := by
  intro hc
  subst hc
  exact absurd h (by decide)

theorem isDigit_ne_plus {c : Char} (h : c.isDigit = true) : c ≠ '+' := by
  intro hc
  subst hc
  exact absurd h (by decide)

theorem isDigit_not_ws {c : Char} (h : c.isDigit = true) : c.isWhitespace = false := by
  rw [Char.isWhitespace]
  have h1 : c ≠ ' ' := by intro hc; subst hc; exact absurd h (by decide)
  have h2 : c ≠ '\t' := by intro hc; subst hc; exact absurd h (by decide)
  have h3 : c ≠ '\r' := by intro hc; subst hc; exact absurd h (by decide)
  have h4 : c ≠ '\n' := by intro hc; subst hc; exact absurd h (by decide)
  simp [h1, h2, h3, h4]

theorem takeWhile_append_of_all {p : Char → Bool} {a : Str} (b : Str)
    (h : ∀ c ∈ a, p c = true) : (a ++ b).takeWhile p = a ++ b.takeWhile p := by
  induction a with
  | nil => rfl
  | cons c t ih =>
    have hc : p c = true := h c (List.mem_cons_self c t)
    simp only [List.cons_append, List.takeWhile_cons, hc, if_true]
    rw [ih (fun x hx => h x (List.mem_cons_of_mem c hx))]

theorem dropWhile_append_of_all {p : Char → Bool} {a : Str} (b : Str)
    (h : ∀ c ∈ a, p c = true) : (a ++ b).dropWhile p = b.dropWhile p := by
  induction a with
  | nil => rfl
  | cons c t ih =>
    have hc : p c = true := h c (List.mem_cons_self c t)
    simp only [List.cons_append, List.dropWhile_cons, hc, if_true]
    exact ih (fun x hx => h x (List.mem_cons_of_mem c hx))

theorem takeWhile_eq_self_of_all {p : Char → Bool} {a : Str}
    (h : ∀ c ∈ a, p c = true) : a.takeWhile p = a := by
  have := takeWhile_append_of_all (p := p) (a := a) [] h
  simpa using this

theorem dropWhile_eq_nil_of_all {p : Char → Bool} {a : Str}
    (h : ∀ c ∈ a, p c = true) : a.dropWhile p = [] := by
  have := dropWhile_append_of_all (p := p) (a := a) [] h
  simpa using this

theorem takeWhile_cons_of_neg {p : Char → Bool} {c : Char} (t : Str) (h : p c = false) :
    (c :: t).takeWhile p = [] := by
  simp [List.takeWhile_cons, h]

theorem dropWhile_cons_of_neg {p : Char → Bool} {c : Char} (t : Str) (h : p c = false) :
    (c :: t).dropWhile p = c :: t := by
  simp [List.dropWhile_cons, h]

theorem stripSign_cons_of_ne_minus {c : Char} {t : Str} (h : c ≠ '-') :
    stripSign (c :: t) = (false, c :: t) := by
  unfold stripSign
  split
  · rename_i heq
    injection heq with h1 _
    exact absurd h1 h
  · rfl

theorem fracMatch_cons_of_ne_dot {c : Char} (t : Str) (d : ℕ) (h : c ≠ '.') :
    fracMatch (c :: t) d = [] := by
  unfold fracMatch
  split
  · rename_i heq
    injection heq with h1 _
    exact absurd h1 h
  · rfl

theorem mem_takeWhile_pred {p : Char → Bool} {l : Str} {c : Char}
    (h : c ∈ l.takeWhile p) : p c = true := by
  induction l with
  | nil => simp [List.takeWhile] at h
  | cons a t ih =>
    rw [List.takeWhile_cons] at h
    by_cases hp : p a = true
    · rw [if_pos hp] at h
      rcases List.mem_cons.mp h with rfl | h'
      · exact hp
      · exact ih h'
    · rw [if_neg hp] at h
      exact absurd h (List.not_mem_nil c)

theorem mem_of_mem_dropWhile {p : Char → Bool} {l : Str} {c : Char}
    (h : c ∈ l.dropWhile p) : c ∈ l := by
  induction l with
  | nil => simp [List.dropWhile] at h
  | cons a t ih =>
    rw [List.dropWhile_cons] at h
    by_cases hp : p a = true
    · rw [if_pos hp] at h
      exact List.mem_cons_of_mem a (ih h)
    · rw [if_neg hp] at h
      exact h

theorem dropWhile_head_false {p : Char → Bool} {l : Str} {c : Char} {t : Str}
    (h : l.dropWhile p = c :: t) : p c = false := by
  induction l with
  | nil => simp [List.dropWhile] at h
  | cons a s ih =>
    rw [List.dropWhile_cons] at h
    by_cases hp : p a = true
    · rw [if_pos hp] at h
      exact ih h
    · rw [if_neg hp] at h
      injection h with h1 _
      rw [← h1]
      simpa using hp

theorem dropWhile_idem (p : Char → Bool) (l : Str) :
    (l.dropWhile p).dropWhile p = l.dropWhile p := by
  cases hl : l.dropWhile p with
  | nil => rfl
  | cons c t =>
    rw [List.dropWhile_cons]
    simp [dropWhile_head_false hl]

theorem length_dropWhile_le (p : Char → Bool) (l : Str) :
    (l.dropWhile p).length ≤ l.length := by
  induction l with
  | nil => exact Nat.le_refl 0
  | cons a t ih =>
    rw [List.dropWhile_cons]
    by_cases hp : p a = true
    · rw [if_pos hp]
      exact Nat.le_succ_of_le ih
    · rw [if_neg hp]

theorem mem_of_mem_stripTrailingZeroRun {l : Str} {c : Char}
    (h : c ∈ stripTrailingZeroRun l) : c ∈ l := by
  unfold stripTrailingZeroRun at h
  rw [List.mem_reverse] at h
  exact List.mem_reverse.mp (mem_of_mem_dropWhile h)

theorem length_stripTrailingZeroRun_le (l : Str) :
    (stripTrailingZeroRun l).length ≤ l.length := by
  unfold stripTrailingZeroRun
  rw [List.length_reverse]
  calc (l.reverse.dropWhile (fun c => c = '0')).length
      ≤ l.reverse.length := length_dropWhile_le _ _
    _ = l.length := List.length_reverse l

theorem stripTrailingZeroRun_idem (l : Str) :
    stripTrailingZeroRun (stripTrailingZeroRun l) = stripTrailingZeroRun l := by
  unfold stripTrailingZeroRun
  rw [List.reverse_reverse, dropWhile_idem]

theorem splitAtDot_no_dot {s : Str} (h : ∀ c ∈ s, c ≠ '.') : splitAtDot s = (s, none) := by
  induction s with
  | nil => rfl
  | cons a t ih =>
    have ha : a ≠ '.' := h a (List.mem_cons_self a t)
    rw [splitAtDot, if_neg ha, ih (fun c hc => h c (List.mem_cons_of_mem a hc))]

theorem splitAtDot_append_dot {a b : Str} (h : ∀ c ∈ a, c ≠ '.') :
    splitAtDot (a ++ '.' :: b) = (a, some b) := by
  induction a with
  | nil => rfl
  | cons x t ih =>
    have hx : x ≠ '.' := h x (List.mem_cons_self x t)
    rw [List.cons_append, splitAtDot, if_neg hx,
      ih (fun c hc => h c (List.mem_cons_of_mem x hc))]

theorem withSign_append (neg : Bool) (a b : Str) :
    withSign neg a ++ b = withSign neg (a ++ b) := by
  cases neg <;> simp [withSign]

theorem withSign_ne_nil {neg : Bool} {c : Char} {t : Str} :
    withSign neg (c :: t) ≠ [] := by
  cases neg <;> simp [withSign]

theorem stripSign_withSign {neg : Bool} {c : Char} {t : Str} (h : c ≠ '-') :
    stripSign (withSign neg (c :: t)) = (neg, c :: t) := by
  cases neg with
  | true => rfl
  | false => exact stripSign_cons_of_ne_minus h

/-! ## Evaluation of `parseFloat` on signed digit strings -/

theorem parseSign_cons_of_digit {c : Char} (t : Str) (h : c.isDigit = true) :
    parseSign (c :: t) = (false, c :: t) := by
  unfold parseSign
  split
  · rename_i heq
    injection heq with h1 _
    exact absurd h1 (isDigit_ne_minus h)
  · rename_i heq
    injection heq with h1 _
    exact absurd h1 (isDigit_ne_plus h)
  · rfl

/-- `parseFloat` of a pure digit string is its numeric value. -/
theorem parseFloatQ_digits (c : Char) (t : Str) (hd : ∀ x ∈ c :: t, x.isDigit = true) :
    parseFloatQ (c :: t) = some ((digitsToNat (c :: t) : ℕ) : ℚ) := by
  have hc : c.isDigit = true := hd c (List.mem_cons_self c t)
  have hws : (c :: t).dropWhile Char.isWhitespace = c :: t :=
    dropWhile_cons_of_neg t (isDigit_not_ws hc)
  have htake : (c :: t).takeWhile Char.isDigit = c :: t := takeWhile_eq_self_of_all hd
  have hdrop : (c :: t).dropWhile Char.isDigit = [] := dropWhile_eq_nil_of_all hd
  simp only [parseFloatQ, hws, parseSign_cons_of_digit t hc, htake, hdrop]
  norm_num [digitsToNat]
  exact fun h => absurd h (List.cons_ne_nil c t)

/-- `parseFloat` of `'-'` followed by digits is the negated numeric value. -/
theorem parseFloatQ_neg_digits (c : Char) (t : Str) (hd : ∀ x ∈ c :: t, x.isDigit = true) :
    parseFloatQ ('-' :: c :: t) = some (-((digitsToNat (c :: t) : ℕ) : ℚ)) := by
  have hc : c.isDigit = true := hd c (List.mem_cons_self c t)
  have hws : ('-' :: c :: t).dropWhile Char.isWhitespace = '-' :: c :: t :=
    dropWhile_cons_of_neg _ (by decide)
  have htake : (c :: t).takeWhile Char.isDigit = c :: t := takeWhile_eq_self_of_all hd
  have hdrop : (c :: t).dropWhile Char.isDigit = [] := dropWhile_eq_nil_of_all hd
  have hsign : parseSign ('-' :: c :: t) = (true, c :: t) := rfl
  simp only [parseFloatQ, hws, hsign, htake, hdrop]
  norm_num [digitsToNat]
  exact fun h => absurd h (List.cons_ne_nil c t)

theorem parseFloatQ_zero_str : parseFloatQ "0".toList = some 0 := by
  rw [show ("0".toList : Str) = ['0'] from rfl,
    parseFloatQ_digits '0' [] (by decide)]
  norm_num [show digitsToNat ['0'] = 0 from rfl]

theorem parseFloatQ_two_str : parseFloatQ "2".toList = some 2 := by
  rw [show ("2".toList : Str) = ['2'] from rfl,
    parseFloatQ_digits '2' [] (by decide)]
  norm_num [show digitsToNat ['2'] = 2 from rfl]

theorem parseFloatQ_neg_two_str : parseFloatQ "-2".toList = some (-2) := by
  rw [show ("-2".toList : Str) = '-' :: ['2'] from rfl,
    parseFloatQ_neg_digits '2' [] (by decide)]
  norm_num [show digitsToNat ['2'] = 2 from rfl]

/-! ## Structure of `toFixedTruncate` on valid decimal strings

A valid decimal string is an optional sign, a non-empty digit run, and an
optional dot followed by a non-empty digit run.  `toFixedTruncate` on such a
string truncates the fraction (`fracTake`), then `formatDecimalString`
normalizes the integer part (`normInt`: leading-zero removal) and the
fraction (`normFrac`: trailing-zero removal), collapsing `-0` to `0`. -/

/-- A valid decimal string: `-? digits+ (. digits+)?`. -/
def ValidDecimal (s : Str) : Prop :=
  ∃ (neg : Bool) (I F : Str),
    s = withSign neg (I ++ F) ∧ I ≠ [] ∧ (∀ c ∈ I, c.isDigit = true) ∧
    (F = [] ∨ ∃ F', F = '.' :: F' ∧ F' ≠ [] ∧ (∀ c ∈ F', c.isDigit = true))

/-- The integer part produced by `removeLeadingZeros`: strip the leading zero
run, keeping a single `'0'` when nothing remains. -/
def normInt (I : Str) : Str :=
  if I.dropWhile (fun c => c = '0') = [] then ['0'] else I.dropWhile (fun c => c = '0')

/-- The fractional part kept by the `toFixedTruncate` regex: at most `d`
digits after the dot. -/
def fracTake (fr : Str) (d : ℕ) : Str :=
  match fr with
  | '.' :: G => '.' :: G.take d
  | _ => []

/-- The fractional part produced by `removeTrailingZeros`: strip trailing
zeros, dropping the dot when nothing remains. -/
def normFrac (fr : Str) : Str :=
  match fr with
  | '.' :: G =>
    let G₁ := stripTrailingZeroRun G
    if G₁ = [] then [] else '.' :: G₁
  | _ => []

theorem pred_of_dropWhile_nil {p : Char → Bool} {l : Str} (h : l.dropWhile p = []) :
    ∀ c ∈ l, p c = true := by
  induction l with
  | nil => intro c hc; exact absurd hc (List.not_mem_nil c)
  | cons a t ih =>
    rw [List.dropWhile_cons] at h
    by_cases hp : p a = true
    · rw [if_pos hp] at h
      intro c hc
      rcases List.mem_cons.mp hc with rfl | hc'
      · exact hp
      · exact ih h c hc'
    · rw [if_neg hp] at h
      exact absurd h (List.cons_ne_nil a t)

theorem normInt_ne_nil (I : Str) : normInt I ≠ [] := by
  unfold normInt
  split
  · exact List.cons_ne_nil '0' []
  · assumption

theorem normInt_digits {I : Str} (hId : ∀ c ∈ I, c.isDigit = true) :
    ∀ c ∈ normInt I, c.isDigit = true := by
  unfold normInt
  split
  · intro c hc
    rcases List.mem_cons.mp hc with rfl | hc'
    · decide
    · exact absurd hc' (List.not_mem_nil c)
  · intro c hc
    exact hId c (mem_of_mem_dropWhile hc)

theorem normInt_idem (I : Str) : normInt (normInt I) = normInt I := by
  unfold normInt
  cases hJ : I.dropWhile (fun c => c = '0') with
  | nil =>
    rw [if_pos rfl]
    norm_num
  | cons j J' =>
    rw [if_neg (List.cons_ne_nil j J')]
    have hj : (fun c => decide (c = '0')) j = false := dropWhile_head_false hJ
    rw [List.dropWhile_cons]
    simp only [hj, Bool.false_eq_true, if_false]
    rw [if_neg (List.cons_ne_nil j J')]

theorem normFrac_stripped {fr G₁ : Str} (h : normFrac fr = '.' :: G₁) :
    G₁ ≠ [] ∧ stripTrailingZeroRun G₁ = G₁ := by
  unfold normFrac at h
  split at h
  · rename_i G
    by_cases hG : stripTrailingZeroRun G = []
    · rw [if_pos hG] at h
      exact absurd h.symm (List.cons_ne_nil '.' G₁)
    · rw [if_neg hG] at h
      simp only [List.cons.injEq, true_and] at h
      refine ⟨h ▸ hG, ?_⟩
      rw [← h, stripTrailingZeroRun_idem]
  · exact absurd h.symm (List.cons_ne_nil '.' G₁)

theorem normFrac_mem {fr G₁ : Str} (h : normFrac fr = '.' :: G₁) :
    ∀ c ∈ G₁, ∃ G, fr = '.' :: G ∧ c ∈ G := by
  unfold normFrac at h
  split at h
  · rename_i G
    by_cases hG : stripTrailingZeroRun G = []
    · rw [if_pos hG] at h
      exact absurd h.symm (List.cons_ne_nil '.' G₁)
    · rw [if_neg hG] at h
      simp only [List.cons.injEq, true_and] at h
      intro c hc
      exact ⟨G, rfl, mem_of_mem_stripTrailingZeroRun (h ▸ hc)⟩
  · exact absurd h.symm (List.cons_ne_nil '.' G₁)

theorem normFrac_length {fr G₁ : Str} (h : normFrac fr = '.' :: G₁) :
    ∃ G, fr = '.' :: G ∧ G₁.length ≤ G.length := by
  unfold normFrac at h
  split at h
  · rename_i G
    by_cases hG : stripTrailingZeroRun G = []
    · rw [if_pos hG] at h
      exact absurd h.symm (List.cons_ne_nil '.' G₁)
    · rw [if_neg hG] at h
      simp only [List.cons.injEq, true_and] at h
      exact ⟨G, rfl, h ▸ length_stripTrailingZeroRun_le G⟩
  · exact absurd h.symm (List.cons_ne_nil '.' G₁)

theorem normFrac_shape {fr : Str} :
    normFrac fr = [] ∨ ∃ G₁, normFrac fr = '.' :: G₁ := by
  unfold normFrac
  split
  · rename_i G
    by_cases hG : stripTrailingZeroRun G = []
    · rw [if_pos hG]; exact Or.inl rfl
    · rw [if_neg hG]; exact Or.inr ⟨_, rfl⟩
  · exact Or.inl rfl

theorem normFrac_idem {fr : Str} : normFrac (normFrac fr) = normFrac fr := by
  rcases @normFrac_shape fr with h | ⟨G₁, h⟩
  · rw [h]
    rfl
  · rw [h]
    obtain ⟨hne, hstrip⟩ := normFrac_stripped h
    have hred : normFrac ('.' :: G₁) =
        if stripTrailingZeroRun G₁ = [] then [] else '.' :: stripTrailingZeroRun G₁ := rfl
    rw [hred, hstrip, if_neg hne]

theorem dropWhile_eq_self_of_all_neg {p : Char → Bool} {l : Str}
    (h : ∀ c ∈ l, p c = false) : l.dropWhile p = l := by
  cases l with
  | nil => rfl
  | cons a t => exact dropWhile_cons_of_neg t (h a (List.mem_cons_self a t))

theorem jsTrim_eq_self {s : Str} (h : ∀ c ∈ s, c.isWhitespace = false) : jsTrim s = s := by
  unfold jsTrim
  rw [dropWhile_eq_self_of_all_neg h,
    dropWhile_eq_self_of_all_neg (fun c hc => h c (List.mem_reverse.mp hc)),
    List.reverse_reverse]

theorem shape_not_ws {neg : Bool} {I fr : Str}
    (hId : ∀ c ∈ I, c.isDigit = true)
    (hfr : fr = [] ∨ ∃ G, fr = '.' :: G ∧ ∀ c ∈ G, c.isDigit = true) :
    ∀ c ∈ withSign neg (I ++ fr), c.isWhitespace = false := by
  intro c hc
  have hmem : c = '-' ∨ c ∈ I ++ fr := by
    cases neg with
    | true =>
      have hc' : c ∈ '-' :: (I ++ fr) := hc
      exact List.mem_cons.mp hc'
    | false => exact Or.inr hc
  rcases hmem with rfl | hm
  · decide
  · rcases List.mem_append.mp hm with hi | hf
    · exact isDigit_not_ws (hId c hi)
    · rcases hfr with rfl | ⟨G, rfl, hG⟩
      · exact absurd hf (List.not_mem_nil c)
      · rcases List.mem_cons.mp hf with rfl | hg
        · decide
        · exact isDigit_not_ws (hG c hg)

theorem toFixedMatch_shape (neg : Bool) {I : Str} (fr : Str) (d : ℕ) (hI : I ≠ [])
    (hId : ∀ c ∈ I, c.isDigit = true)
    (hfr : fr = [] ∨ ∃ G, fr = '.' :: G ∧ ∀ c ∈ G, c.isDigit = true) :
    toFixedMatch (withSign neg (I ++ fr)) d = withSign neg (I ++ fracTake fr d) := by
  obtain ⟨c0, I0, rfl⟩ := List.exists_cons_of_ne_nil hI
  have hc0 : c0.isDigit = true := hId c0 (List.mem_cons_self c0 I0)
  have hstrip : stripSign (withSign neg ((c0 :: I0) ++ fr)) = (neg, (c0 :: I0) ++ fr) :=
    stripSign_withSign (isDigit_ne_minus hc0)
  have hfrtw : fr.takeWhile Char.isDigit = [] := by
    rcases hfr with rfl | ⟨G, rfl, _⟩
    · rfl
    · exact takeWhile_cons_of_neg G (by decide)
  have hfrdw : fr.dropWhile Char.isDigit = fr := by
    rcases hfr with rfl | ⟨G, rfl, _⟩
    · rfl
    · exact dropWhile_cons_of_neg G (by decide)
  have htw : ((c0 :: I0) ++ fr).takeWhile Char.isDigit = c0 :: I0 := by
    rw [takeWhile_append_of_all fr hId, hfrtw, List.append_nil]
  have hdw : ((c0 :: I0) ++ fr).dropWhile Char.isDigit = fr := by
    rw [dropWhile_append_of_all fr hId, hfrdw]
  have hfm : fracMatch fr d = fracTake fr d := by
    rcases hfr with rfl | ⟨G, rfl, hG⟩
    · rfl
    · show '.' :: ((G.takeWhile Char.isDigit).take d) = '.' :: G.take d
      rw [takeWhile_eq_self_of_all hG]
  simp only [toFixedMatch, hstrip, htw, hdw, hfm]

theorem removeLeadingZeros_shape (neg : Bool) {I : Str} (fr : Str) (hI : I ≠ [])
    (hId : ∀ c ∈ I, c.isDigit = true)
    (hfr : fr = [] ∨ ∃ G, fr = '.' :: G) :
    removeLeadingZeros (withSign neg (I ++ fr)) = withSign neg (normInt I ++ fr) := by
  obtain ⟨c0, I0, rfl⟩ := List.exists_cons_of_ne_nil hI
  have hc0 : c0.isDigit = true := hId c0 (List.mem_cons_self c0 I0)
  have hstrip : stripSign (withSign neg ((c0 :: I0) ++ fr)) = (neg, (c0 :: I0) ++ fr) :=
    stripSign_withSign (isDigit_ne_minus hc0)
  have hfrtwz : fr.takeWhile (fun c => c = '0') = [] := by
    rcases hfr with rfl | ⟨G, rfl⟩
    · rfl
    · exact takeWhile_cons_of_neg G (by decide)
  have hfrdwz : fr.dropWhile (fun c => c = '0') = fr := by
    rcases hfr with rfl | ⟨G, rfl⟩
    · rfl
    · exact dropWhile_cons_of_neg G (by decide)
  cases hJ : (c0 :: I0).dropWhile (fun c => c = '0') with
  | nil =>
    have hallz : ∀ c ∈ c0 :: I0, (fun c => decide (c = '0')) c = true :=
      pred_of_dropWhile_nil hJ
    have htw : ((c0 :: I0) ++ fr).takeWhile (fun c => c = '0') = c0 :: I0 := by
      rw [takeWhile_append_of_all fr hallz, hfrtwz, List.append_nil]
    have hdw : ((c0 :: I0) ++ fr).dropWhile (fun c => c = '0') = fr := by
      rw [dropWhile_append_of_all fr hallz, hfrdwz]
    have hnormI : normInt (c0 :: I0) = ['0'] := by
      unfold normInt
      rw [hJ, if_pos rfl]
    have hc0z : c0 = '0' := by
      have := hallz c0 (List.mem_cons_self c0 I0)
      exact of_decide_eq_true this
    rw [hnormI]
    simp only [removeLeadingZeros, hstrip, htw, hdw]
    cases I0 with
    | nil =>
      rcases hfr with rfl | ⟨G, rfl⟩
      · simp only [List.isEmpty_cons, Bool.false_eq_true, if_false,
          List.length_singleton]
        rw [if_neg (by norm_num)]
        all_goals rw [hc0z]
      · simp only [List.isEmpty_cons, Bool.false_eq_true, if_false,
          List.length_singleton]
        rw [if_neg (by decide), if_neg (by norm_num)]
        all_goals rw [hc0z]
    | cons c1 I1 =>
      have hlen : 2 ≤ (c0 :: c1 :: I1).length := by simp
      rcases hfr with rfl | ⟨G, rfl⟩
      · simp only [List.isEmpty_cons, Bool.false_eq_true, if_false]
        rw [if_pos hlen]
        rfl
      · simp only [List.isEmpty_cons, Bool.false_eq_true, if_false]
        rw [if_neg (by decide), if_pos hlen]
        rfl
  | cons j J' =>
    have hjz : (fun c => decide (c = '0')) j = false := dropWhile_head_false hJ
    have hjmem : j ∈ c0 :: I0 := by
      have : j ∈ (c0 :: I0).dropWhile (fun c => c = '0') := by
        rw [hJ]
        exact List.mem_cons_self j J'
      exact mem_of_mem_dropWhile this
    have hjd : j.isDigit = true := hId j hjmem
    have hIsplit : ((c0 :: I0).takeWhile (fun c => c = '0')) ++ j :: J' = c0 :: I0 := by
      rw [← hJ]
      exact List.takeWhile_append_dropWhile _ _
    have hnormI : normInt (c0 :: I0) = j :: J' := by
      unfold normInt
      rw [hJ, if_neg (List.cons_ne_nil j J')]
    have htwall : ∀ c ∈ (c0 :: I0).takeWhile (fun c => c = '0'),
        (fun c => decide (c = '0')) c = true := fun c hc => mem_takeWhile_pred hc
    have htw : ((c0 :: I0) ++ fr).takeWhile (fun c => c = '0') =
        (c0 :: I0).takeWhile (fun c => c = '0') := by
      conv in (c0 :: I0) ++ fr => rw [← hIsplit]
      rw [List.append_assoc, takeWhile_append_of_all _ htwall, List.cons_append,
        takeWhile_cons_of_neg (J' ++ fr) hjz, List.append_nil]
    have hdw : ((c0 :: I0) ++ fr).dropWhile (fun c => c = '0') = j :: (J' ++ fr) := by
      conv in (c0 :: I0) ++ fr => rw [← hIsplit]
      rw [List.append_assoc, dropWhile_append_of_all _ htwall, List.cons_append,
        dropWhile_cons_of_neg (J' ++ fr) hjz]
    rw [hnormI]
    simp only [removeLeadingZeros, hstrip, htw, hdw]
    cases hZ : (c0 :: I0).takeWhile (fun c => c = '0') with
    | nil =>
      have hJI : j :: J' = c0 :: I0 := by
        rw [hZ] at hIsplit
        simpa using hIsplit
      simp only [List.isEmpty_nil, if_true]
      rw [← hJI, List.cons_append]
    | cons z0 Z' =>
      simp only [List.isEmpty_cons, Bool.false_eq_true, if_false]
      rw [if_pos hjd, List.cons_append]

theorem shape_no_dot {neg : Bool} {I : Str}
    (hId : ∀ c ∈ I, c.isDigit = true) :
    ∀ c ∈ withSign neg I, c ≠ '.' := by
  intro c hc
  have hmem : c = '-' ∨ c ∈ I := by
    cases neg with
    | true =>
      have hc' : c ∈ '-' :: I := hc
      exact List.mem_cons.mp hc'
    | false => exact Or.inr hc
  rcases hmem with rfl | hm
  · decide
  · exact isDigit_ne_dot (hId c hm)

theorem removeTrailingZeros_shape (neg : Bool) {I : Str} (fr : Str)
    (hId : ∀ c ∈ I, c.isDigit = true)
    (hfr : fr = [] ∨ ∃ G, fr = '.' :: G) :
    removeTrailingZeros (withSign neg (I ++ fr)) = withSign neg (I ++ normFrac fr) := by
  rcases hfr with rfl | ⟨G, rfl⟩
  · have hnodot : ∀ c ∈ withSign neg (I ++ []), c ≠ '.' := by
      rw [List.append_nil]
      exact shape_no_dot hId
    unfold removeTrailingZeros
    rw [splitAtDot_no_dot hnodot]
    rfl
  · have hsplit : splitAtDot (withSign neg (I ++ '.' :: G)) = (withSign neg I, some G) := by
      rw [← withSign_append]
      exact splitAtDot_append_dot (shape_no_dot hId)
    have hbody : removeTrailingZeros (withSign neg (I ++ '.' :: G)) =
        (if (stripTrailingZeroRun G).isEmpty then withSign neg I
         else withSign neg I ++ '.' :: stripTrailingZeroRun G) := by
      unfold removeTrailingZeros
      rw [hsplit]
    rw [hbody]
    by_cases hG : stripTrailingZeroRun G = []
    · have hnf : normFrac ('.' :: G) = [] := by
        have hred : normFrac ('.' :: G) =
            if stripTrailingZeroRun G = [] then [] else '.' :: stripTrailingZeroRun G := rfl
        rw [hred, if_pos hG]
      rw [hnf, if_pos (by simp [hG]), List.append_nil]
    · have hnf : normFrac ('.' :: G) = '.' :: stripTrailingZeroRun G := by
        have hred : normFrac ('.' :: G) =
            if stripTrailingZeroRun G = [] then [] else '.' :: stripTrailingZeroRun G := rfl
        rw [hred, if_neg hG]
      rw [hnf, if_neg (by simp [hG]), withSign_append]

theorem addLeadingZeroDot_eq_self {neg : Bool} {c : Char} {t : Str}
    (hdot : c ≠ '.') (hminus : c ≠ '-') :
    addLeadingZeroDot (withSign neg (c :: t)) = withSign neg (c :: t) := by
  cases neg with
  | true =>
    show addLeadingZeroDot ('-' :: c :: t) = '-' :: c :: t
    unfold addLeadingZeroDot
    split
    · rename_i heq
      injection heq with h1 _
      exact absurd h1 (by decide)
    · rename_i heq
      injection heq with _ h2
      injection h2 with h3 _
      exact absurd h3 hdot
    · rfl
  | false =>
    show addLeadingZeroDot (c :: t) = c :: t
    unfold addLeadingZeroDot
    split
    · rename_i heq
      injection heq with h1 _
      exact absurd h1 hdot
    · rename_i heq
      injection heq with h1 _
      exact absurd h1 hminus
    · rfl

theorem emptyToZero_eq_self {neg : Bool} {c : Char} {t : Str} (h : c ≠ '-') :
    emptyToZero (withSign neg (c :: t)) = withSign neg (c :: t) := by
  unfold emptyToZero
  rw [if_neg]
  intro hcon
  rcases hcon with h1 | h1
  · exact withSign_ne_nil h1
  · cases neg with
    | true =>
      have h1' : ('-' :: c :: t : Str) = ['-'] := h1
      injection h1' with _ h2
      exact List.cons_ne_nil c t h2
    | false =>
      have h1' : (c :: t : Str) = ['-'] := h1
      injection h1' with h2 _
      exact h h2

theorem negZeroToZero_eq_self {neg : Bool} {c : Char} {t : Str} (hminus : c ≠ '-')
    (h : ¬ (neg = true ∧ c :: t = ['0'])) :
    negZeroToZero (withSign neg (c :: t)) = withSign neg (c :: t) := by
  unfold negZeroToZero
  rw [if_neg]
  intro hcon
  cases neg with
  | true =>
    have h1 : ('-' :: c :: t : Str) = ['-', '0'] := hcon
    injection h1 with _ h2
    exact h ⟨rfl, h2⟩
  | false =>
    have h1 : (c :: t : Str) = ['-', '0'] := hcon
    injection h1 with h2 _
    exact hminus h2

/-- The combined action of `formatDecimalString` on a signed decimal string
with a non-empty all-digit integer part and an optional dot-led all-digit
fraction: the integer part is leading-zero-normalized, the fraction
trailing-zero-normalized, and `-0` collapses to `0`. -/
theorem formatDecimalString_shape (neg : Bool) {I : Str} (fr : Str) (hI : I ≠ [])
    (hId : ∀ c ∈ I, c.isDigit = true)
    (hfr : fr = [] ∨ ∃ G, fr = '.' :: G ∧ ∀ c ∈ G, c.isDigit = true) :
    formatDecimalString (withSign neg (I ++ fr)) =
      (if neg = true ∧ normInt I = ['0'] ∧ normFrac fr = [] then ['0']
       else withSign neg (normInt I ++ normFrac fr)) := by
  have hfr' : fr = [] ∨ ∃ G, fr = '.' :: G := by
    rcases hfr with h | ⟨G, hG, _⟩
    · exact Or.inl h
    · exact Or.inr ⟨G, hG⟩
  unfold formatDecimalString
  rw [jsTrim_eq_self (shape_not_ws hId hfr),
    removeLeadingZeros_shape neg fr hI hId hfr',
    removeTrailingZeros_shape neg fr (normInt_digits hId) hfr']
  obtain ⟨c2, t2, hnI⟩ := List.exists_cons_of_ne_nil (normInt_ne_nil I)
  have hc2 : c2.isDigit = true := by
    have hall := normInt_digits hId (I := I)
    rw [hnI] at hall
    exact hall c2 (List.mem_cons_self c2 t2)
  have hshape : normInt I ++ normFrac fr = c2 :: (t2 ++ normFrac fr) := by
    rw [hnI, List.cons_append]
  rw [hshape, addLeadingZeroDot_eq_self (isDigit_ne_dot hc2) (isDigit_ne_minus hc2),
    emptyToZero_eq_self (isDigit_ne_minus hc2)]
  by_cases hcond : neg = true ∧ normInt I = ['0'] ∧ normFrac fr = []
  · rw [if_pos hcond]
    obtain ⟨h1, h2, h3⟩ := hcond
    have hsing : c2 :: (t2 ++ normFrac fr) = ['0'] := by
      rw [← hshape, h2, h3]
      rfl
    rw [hsing, h1]
    decide
  · rw [if_neg hcond]
    have hne : ¬ (neg = true ∧ c2 :: (t2 ++ normFrac fr) = ['0']) := by
      intro ⟨h1, h2⟩
      apply hcond
      refine ⟨h1, ?_⟩
      have h2' : normInt I ++ normFrac fr = ['0'] := by rw [hshape, h2]
      rcases @normFrac_shape fr with h3 | ⟨G₁, h3⟩
      · rw [h3, List.append_nil] at h2'
        exact ⟨h2', h3⟩
      · exfalso
        rw [hnI, h3] at h2'
        have hlen := congrArg List.length h2'
        simp [List.length_append] at hlen
    rw [negZeroToZero_eq_self (isDigit_ne_minus hc2) hne, ← hshape]

theorem fracTake_shape {fr : Str} (d : ℕ)
    (hfr : fr = [] ∨ ∃ G, fr = '.' :: G ∧ ∀ c ∈ G, c.isDigit = true) :
    fracTake fr d = [] ∨ ∃ G, fracTake fr d = '.' :: G ∧ ∀ c ∈ G, c.isDigit = true := by
  rcases hfr with rfl | ⟨G, rfl, hG⟩
  · exact Or.inl rfl
  · exact Or.inr ⟨G.take d, rfl, fun c hc => hG c (List.take_subset d G hc)⟩

theorem fracTake_len {F : Str} {d : ℕ} {G : Str} (h : fracTake F d = '.' :: G) :
    G.length ≤ d := by
  unfold fracTake at h
  split at h
  · rename_i F'
    injection h with _ h2
    rw [← h2, List.length_take]
    exact min_le_left d F'.length
  · exact absurd h.symm (List.cons_ne_nil '.' G)

theorem normFrac_digits {fr : Str}
    (hfr : fr = [] ∨ ∃ G, fr = '.' :: G ∧ ∀ c ∈ G, c.isDigit = true) :
    normFrac fr = [] ∨ ∃ G₁, normFrac fr = '.' :: G₁ ∧ ∀ c ∈ G₁, c.isDigit = true := by
  rcases @normFrac_shape fr with h | ⟨G₁, h⟩
  · exact Or.inl h
  · refine Or.inr ⟨G₁, h, fun c hc => ?_⟩
    obtain ⟨G, hfrG, hcG⟩ := normFrac_mem h c hc
    rcases hfr with rfl | ⟨G', hG', hd⟩
    · exact absurd hfrG (List.cons_ne_nil '.' G).symm
    · rw [hfrG] at hG'
      injection hG' with _ h2
      exact hd c (h2 ▸ hcG)

theorem toFixedTruncate_zero_str (n : ℤ) (hn : 0 ≤ n) : toFixedTruncate ['0'] n = ['0'] := by
  have hd : ∀ c ∈ (['0'] : Str), c.isDigit = true := by
    intro c hc
    rw [List.mem_singleton] at hc
    subst hc
    decide
  have hm : toFixedMatch ['0'] n.toNat = ['0'] := by
    have h := toFixedMatch_shape false (I := ['0']) [] n.toNat
      (List.cons_ne_nil '0' []) hd (Or.inl rfl)
    simpa [withSign, fracTake] using h
  simp only [toFixedTruncate, not_lt.mpr hn, if_false, hm]
  rw [if_neg (by decide)]
  decide

/-! ## Claim theorems -/

/-- **C2.** The cross-margin liquidation price computation: with account
equity `E`, other-positions maintenance margin `M`, entry price, positive
absolute size and maintenance-margin fraction `mmf ∈ [0, 1)`, the result is
`null` when `A = E − M ≤ 0`, otherwise `(entry·size − A)/(size·(1 − mmf))`
for a long and `(A + entry·size)/(size·(1 + mmf))` for a short, with a
non-positive result replaced by `null`. -/
theorem c2_cross_margin_liquidation_price (side : DydxSide) (size entry E M mmf : ℚ)
    (hsize : 0 < size) (hmmf0 : 0 ≤ mmf) (hmmf1 : mmf < 1) :
    dydxLiquidationPrice side (some size) (some entry) (some E) (some M) (some mmf) =
      (if E - M ≤ 0 then none
       else
         let A := E - M
         let L : ℚ :=
           match side with
           | .LONG => (entry * size - A) / (size * (1 - mmf))
           | .SHORT => (A + entry * size) / (size * (1 + mmf))
         if L ≤ 0 then none else some (some L)) := by
  have hden1 : size * (1 - mmf) ≠ 0 := mul_ne_zero (ne_of_gt hsize) (by linarith)
  have hden2 : size * (1 + mmf) ≠ 0 := mul_ne_zero (ne_of_gt hsize) (by linarith)
  have hsz : size ≠ 0 := ne_of_gt hsize
  by_cases hA : E - M ≤ 0
  · have h0 : ¬ (0:ℚ) < E - M := not_lt.mpr hA
    simp [dydxLiquidationPrice, jsSub, jsGt, hA, h0]
  · have h0 : (0:ℚ) < E - M := lt_of_not_le hA
    rw [if_neg hA]
    cases side with
    | LONG =>
      simp [dydxLiquidationPrice, calculateLiquidationPrice, jsSub, jsGt, jsEq,
        jsMul, jsAdd, jsDiv, jsLe, h0, hsz, hA, hden1]
    | SHORT =>
      simp [dydxLiquidationPrice, calculateLiquidationPrice, jsSub, jsGt, jsEq,
        jsMul, jsAdd, jsDiv, jsLe, h0, hsz, hA, hden2]

/-- Witness for C2: a long of size 2 entered at 100 with available equity
`120 − 20 = 100` and `mmf = 1/20` liquidates at `1000/19 > 0`. -/
theorem c2_cross_margin_liquidation_price_witness :
    dydxLiquidationPrice .LONG (some 2) (some 100) (some 120) (some 20) (some (1/20)) =
      some (some (1000 / 19)) := by
  have h := c2_cross_margin_liquidation_price .LONG 2 100 120 20 (1/20)
    (by norm_num) (by norm_num) (by norm_num)
  rw [h]
  norm_num

/-- **C3.** `marginUsed` returns the API margin exactly in isolated mode with
a positive API margin; otherwise `notional / leverage` when the leverage is
positive and `0` when it is not — for both the shared and the Pacifica
variant — and in particular `isolated, apiMargin 150, notional 1000,
leverage 10` yields `150`. -/
theorem c3_margin_used :
    (∀ (isolated : Bool) (apiMargin notional leverage : ℚ),
      calculateMargin isolated apiMargin notional leverage =
        (if isolated = true ∧ 0 < apiMargin then apiMargin
         else if 0 < leverage then notional / leverage else 0) ∧
      calculateMarginUsed isolated apiMargin notional leverage =
        (if isolated = true ∧ 0 < apiMargin then apiMargin
         else if 0 < leverage then notional / leverage else 0)) ∧
    calculateMargin true 150 1000 10 = 150 ∧
    calculateMarginUsed true 150 1000 10 = 150 := by
  refine ⟨fun isolated apiMargin notional leverage => ?_, by norm_num [calculateMargin],
    by norm_num [calculateMarginUsed]⟩
  constructor <;>
  · simp only [calculateMargin, calculateMarginUsed]
    by_cases h1 : isolated = true ∧ 0 < apiMargin
    · simp [h1]
    · rw [if_neg h1, if_neg h1]
      by_cases h2 : leverage ≤ 0
      · rw [if_pos h2, if_neg (not_lt.mpr h2)]
      · rw [if_neg h2, if_pos (lt_of_not_le h2)]

/-- **C7.** PnL is `(mark − entry) × |size|` for a long and
`(entry − mark) × |size|` for a short, in both the shared and the Pacifica
calculator; entry 100, mark 110, size 2, long gives 20. -/
theorem c7_pnl :
    (∀ (side : PositionSide) (entry mark size : ℚ),
      calculatePnl side entry mark size =
        (if side = .long then (mark - entry) * |size| else (entry - mark) * |size|) ∧
      pacificaCalculatePnl side entry mark size =
        (if side = .long then (mark - entry) * |size| else (entry - mark) * |size|)) ∧
    calculatePnl .long 100 110 2 = 20 ∧
    pacificaCalculatePnl .long 100 110 2 = 20 := by
  refine ⟨fun side entry mark size => ?_, by norm_num [calculatePnl, abs_of_nonneg],
    by norm_num [pacificaCalculatePnl, abs_of_nonneg]⟩
  cases side <;> simp [calculatePnl, pacificaCalculatePnl]

/-- **C10.** Side normalization is total and defaults to long: every input
yields `long` or `short`; `long` exactly when the lowercased, trimmed input is
a recognized long token or no recognized token at all, `short` exactly when it
is a recognized short token. -/
theorem c10_normalize_side (s : Str) :
    (normalizeSide s = .long ∨ normalizeSide s = .short) ∧
    (normalizeSide s = .long ↔
      (lowerTrim s ∈ longTokens ∨
        (lowerTrim s ∉ longTokens ∧ lowerTrim s ∉ shortTokens))) ∧
    (normalizeSide s = .short ↔ lowerTrim s ∈ shortTokens) := by
  by_cases h1 : lowerTrim s ∈ longTokens
  · have h2 : lowerTrim s ∉ shortTokens := by
      intro h2
      simp only [longTokens, List.mem_cons, List.not_mem_nil, or_false] at h1
      rcases h1 with h | h | h <;> rw [h] at h2 <;> revert h2 <;> decide
    simp [normalizeSide, h1, h2]
  · by_cases h2 : lowerTrim s ∈ shortTokens
    · simp [normalizeSide, h1, h2]
    · simp [normalizeSide, h1, h2]

/-- The liquidation-price sign property of C1: the stored field is `null` or
parses to a strictly positive number. -/
def LiqPriceOk (lp : Option JsNum) : Prop :=
  lp = none ∨ ∃ q : ℚ, lp = some (some q) ∧ 0 < q

/-- `calculateLiquidationPrice` on finite (rational) inputs never returns a
non-positive price: every `some` result passed the final positivity guard. -/
theorem calculateLiquidationPrice_sign (side : DydxSide) (size entry A mmf : ℚ) :
    LiqPriceOk (calculateLiquidationPrice side (some size) (some entry) (some A) (some mmf)) := by
  cases side <;>
  · simp only [calculateLiquidationPrice, jsEq, jsMul, jsSub, jsAdd, jsDiv, jsLe,
      decide_eq_true_eq]
    split_ifs <;> first | exact Or.inl rfl | simp_all [LiqPriceOk]

/-- **C1 (amended).** The dYdX normalizer's computed liquidation price is
`null` or strictly positive on finite parsed inputs; the Aster normalizer maps
only a falsy (empty) venue string to `null` and otherwise stores the parsed
venue value without a sign check; the HyperLiquid, Lighter and Pacifica
normalizers pass the venue-reported liquidation price through verbatim. -/
theorem c1_liquidation_price_sign_amended :
    (∀ (side : DydxSide) (size entry E M mmf : ℚ),
      LiqPriceOk (dydxLiquidationPrice side (some size) (some entry) (some E) (some M)
        (some mmf))) ∧
    (∀ p : AsterRawFields, p.liquidationPrice = [] →
      (normalizeAsterFields p).liquidationPrice = none) ∧
    (∀ p : AsterRawFields, p.liquidationPrice ≠ [] →
      (normalizeAsterFields p).liquidationPrice = some (parseFloatQ p.liquidationPrice)) ∧
    (∀ p : HyperliquidRawFields,
      (normalizeHyperliquidFields p).liquidationPrice = p.liquidationPx) ∧
    (∀ raw : LighterRawFields,
      (normalizeLighterFields raw).liquidationPrice = raw.liquidation_price) ∧
    (∀ raw : PacificaRawFields,
      (normalizePacificaFields raw).liquidationPrice = raw.liquidation_price) := by
  refine ⟨fun side size entry E M mmf => ?_, fun p hp => ?_, fun p hp => ?_,
    fun p => rfl, fun raw => rfl, fun raw => rfl⟩
  · simp only [dydxLiquidationPrice, jsSub]
    split_ifs with h
    · exact calculateLiquidationPrice_sign side size entry (E - M) mmf
    · exact Or.inl rfl
  · simp [normalizeAsterFields, hp]
  · simp [normalizeAsterFields, hp]

/-- Witness for C1 (amended): an Aster position with an empty venue
liquidation-price string normalizes it to `null`. -/
theorem c1_liquidation_price_sign_amended_witness :
    (normalizeAsterFields ⟨"2".toList, []⟩).liquidationPrice = none :=
  c1_liquidation_price_sign_amended.2.1 ⟨"2".toList, []⟩ rfl

/-- **C1 counterexample.** The Aster normalizer, fed a venue-reported
liquidation price of `"0"` (a truthy string), stores a liquidation price that
parses to `0` — neither `null` nor strictly positive. -/
theorem c1_counterexample :
    (normalizeAsterFields ⟨"2".toList, "0".toList⟩).liquidationPrice = some (some 0) ∧
    ¬ LiqPriceOk (normalizeAsterFields ⟨"2".toList, "0".toList⟩).liquidationPrice := by
  have h : (normalizeAsterFields ⟨"2".toList, "0".toList⟩).liquidationPrice
      = some (some 0) := by
    have : (normalizeAsterFields ⟨"2".toList, "0".toList⟩).liquidationPrice
        = some (parseFloatQ "0".toList) := rfl
    rw [this, parseFloatQ_zero_str]
  refine ⟨h, ?_⟩
  rw [h]
  rintro (hnone | ⟨q, hq, hpos⟩)
  · exact Option.noConfusion hnone
  · simp only [Option.some.injEq] at hq
    exact absurd (hq ▸ hpos) (lt_irrefl q)

/-- `jsAbs` only produces non-negative finite values. -/
theorem jsAbs_nonneg (a : JsNum) (q : ℚ) (h : jsAbs a = some q) : 0 ≤ q := by
  cases a with
  | none => exact absurd h (by simp [jsAbs])
  | some r =>
    simp only [jsAbs, Option.map_some', Option.some.injEq] at h
    rw [← h]
    exact abs_nonneg r

/-- **C9 (amended).** The Aster, dYdX and HyperLiquid normalizers store
`Math.abs` of the parsed raw size, so their `size` is non-negative whenever it
is a finite number; the Lighter and Pacifica normalizers copy the raw size
string verbatim, so their `size` is non-negative only when the venue-reported
string is. -/
theorem c9_abs_size_amended :
    (∀ (p : AsterRawFields) (q : ℚ), (normalizeAsterFields p).sizeVal = some q → 0 ≤ q) ∧
    (∀ (raw : DydxRawFields) (q : ℚ), (normalizeDydxFields raw).sizeVal = some q → 0 ≤ q) ∧
    (∀ (p : HyperliquidRawFields) (q : ℚ),
      (normalizeHyperliquidFields p).sizeVal = some q → 0 ≤ q) ∧
    (∀ raw : LighterRawFields, (normalizeLighterFields raw).size = raw.position) ∧
    (∀ raw : PacificaRawFields, (normalizePacificaFields raw).size = raw.amount) := by
  exact ⟨fun p q h => jsAbs_nonneg (parseFloatQ p.positionAmt) q h,
    fun raw q h => jsAbs_nonneg (parseFloatQ raw.size) q h,
    fun p q h => jsAbs_nonneg (parseFloatQ p.szi) q h,
    fun raw => rfl, fun raw => rfl⟩

/-- Witness for C9 (amended): a HyperLiquid position with signed size `"-2"`
normalizes to absolute size `2 ≥ 0`. -/
theorem c9_abs_size_amended_witness :
    (normalizeHyperliquidFields ⟨"-2".toList, "10".toList⟩).sizeVal = some 2 ∧
    (0 : ℚ) ≤ 2 := by
  have h : (normalizeHyperliquidFields ⟨"-2".toList, "10".toList⟩).sizeVal = some 2 := by
    have h0 : (normalizeHyperliquidFields ⟨"-2".toList, "10".toList⟩).sizeVal
        = jsAbs (parseFloatQ "-2".toList) := rfl
    rw [h0, parseFloatQ_neg_two_str]
    show some |(-2 : ℚ)| = some 2
    norm_num
  exact ⟨h, c9_abs_size_amended.2.2.1 ⟨"-2".toList, "10".toList⟩ 2 h⟩

/-- **C9 counterexample.** The Lighter normalizer passes the raw position
string through verbatim: a raw position of `"-2"` (with short sign `-1`)
produces a `size` field that parses to `-2 < 0`, not to the absolute value. -/
theorem c9_counterexample :
    (normalizeLighterFields ⟨-1, "-2".toList, "10".toList⟩).size = "-2".toList ∧
    parseFloatQ "-2".toList = some (-2) ∧ (-2 : ℚ) < 0 :=
  ⟨rfl, parseFloatQ_neg_two_str, by norm_num⟩

/-- **C6 (amended).** The `createProvider` factory task filters zero and
non-finite sizes and skips the metadata fetch (returning `[]`) when nothing
survives; the dYdX task applies the same filter before normalization but
performs its metadata fetch unconditionally (it runs in the same
`Promise.all` as the position fetch); the Pacifica task has no per-position
filter — any non-empty raw array triggers the metadata fetch and every raw
position, zero-sized or not, is enriched and normalized. -/
theorem c6_zero_filter_amended :
    (∀ {Raw Enriched Meta : Type} (getPositionSize : Raw → JsNum) (metadata : Meta)
        (enrichPosition : Raw → Meta → Enriched) (rawPositions : List Raw),
      rawPositions.all (fun p => isZeroPosition (getPositionSize p)) = true →
        createProviderFetchPositions getPositionSize metadata enrichPosition rawPositions
          = ([], false)) ∧
    (∀ {Raw Enriched Meta : Type} (getSize : Raw → JsNum) (metadata : Meta)
        (enrich : Raw → Meta → Enriched) (rawPositions : List Raw),
      (dydxFetchPositions getSize metadata enrich rawPositions).2 = true ∧
      (rawPositions.all (fun p => isZeroPosition (getSize p)) = true →
        (dydxFetchPositions getSize metadata enrich rawPositions).1 = [])) ∧
    (∀ {Raw Enriched Meta : Type} (metadata : Meta) (enrich : Raw → Meta → Enriched)
        (positions : List Raw), positions ≠ [] →
      pacificaFetchPositions metadata enrich positions
        = (positions.map (fun p => enrich p metadata), true)) := by
  have hfilter : ∀ {Raw : Type} (f : Raw → JsNum) (l : List Raw),
      l.all (fun p => isZeroPosition (f p)) = true →
      l.filter (fun p => ! isZeroPosition (f p)) = [] := by
    intro Raw f l h
    rw [List.filter_eq_nil_iff]
    intro a ha
    have hz := List.all_eq_true.mp h a ha
    simp [hz]
  refine ⟨?_, ?_, ?_⟩
  · intro Raw Enriched Meta getPositionSize metadata enrichPosition rawPositions h
    unfold createProviderFetchPositions
    rw [hfilter getPositionSize rawPositions h]
    rfl
  · intro Raw Enriched Meta getSize metadata enrich rawPositions
    constructor
    · simp only [dydxFetchPositions]
      split_ifs <;> rfl
    · intro h
      unfold dydxFetchPositions
      rw [hfilter getSize rawPositions h]
      rfl
  · intro Raw Enriched Meta metadata enrich positions h
    cases positions with
    | nil => exact absurd rfl h
    | cons a t => rfl

/-- Witness for C6 (amended): the factory task over a single zero-sized raw
position returns the empty list without fetching metadata. -/
theorem c6_zero_filter_amended_witness :
    createProviderFetchPositions (fun r : JsNum => r) () (fun r _ => r) [some 0]
      = ([], false) :=
  c6_zero_filter_amended.1 (fun r : JsNum => r) () (fun r _ => r) [some 0] (by decide)

/-- The Pacifica raw position with size `"0"` used in the C6 counterexample. -/
def zeroPacificaRaw : PacificaRawFields :=
  { side := "long".toList, amount := "0".toList, liquidation_price := none }

/-- **C6 counterexample.** A Pacifica account whose only raw position has
size `"0"` still triggers the metadata fetch, and the zero-sized position
reaches enrichment and normalization (its normalized `size` parses to `0`);
the dYdX task fetches metadata even when its only raw position is
zero-sized. -/
theorem c6_counterexample :
    pacificaFetchPositions () (fun p _ => p) [zeroPacificaRaw]
      = ([zeroPacificaRaw], true) ∧
    parseFloatQ (normalizePacificaFields zeroPacificaRaw).size = some 0 ∧
    (dydxFetchPositions (fun r : JsNum => r) () (fun r _ => r) [some 0]).2 = true := by
  refine ⟨rfl, ?_, rfl⟩
  have h : (normalizePacificaFields zeroPacificaRaw).size = "0".toList := rfl
  rw [h, parseFloatQ_zero_str]

/-- **C5 (amended).** A malformed string whose first character is not a
digit, a sign or a dot passes through `toFixedTruncate` unchanged (the regex
match is empty/falsy, so the input — not `"0"` — is returned and malformed
data can propagate); a sign-only prefix collapses to `"0"` (e.g. `"-abc"`);
`toPrecisionTruncate` on such a string reaches the source's unbounded
`'0'.repeat` (a thrown `RangeError`, modelled `none`) rather than
returning `"0"`. -/
theorem c5_malformed_amended :
    (∀ (c : Char) (t : Str) (d : ℤ), 0 ≤ d → c.isDigit = false → c ≠ '-' → c ≠ '.' →
      toFixedTruncate (c :: t) d = c :: t) ∧
    (∀ d : ℤ, toFixedTruncate [] d = []) ∧
    toFixedTruncate "-abc".toList 2 = "0".toList ∧
    toPrecisionTruncate "abc".toList 5 = none := by
  refine ⟨?_, ?_, by decide, by decide⟩
  · intro c t d hd hdig hminus hdot
    have h1 : stripSign (c :: t) = (false, c :: t) := stripSign_cons_of_ne_minus hminus
    have h2 : (c :: t).takeWhile Char.isDigit = [] := takeWhile_cons_of_neg t hdig
    have h3 : (c :: t).dropWhile Char.isDigit = c :: t := dropWhile_cons_of_neg t hdig
    have h4 : fracMatch (c :: t) d.toNat = [] := fracMatch_cons_of_ne_dot t d.toNat hdot
    have hm : toFixedMatch (c :: t) d.toNat = [] := by
      simp [toFixedMatch, h1, h2, h3, h4, withSign]
    simp [toFixedTruncate, not_lt.mpr hd, hm]
  · intro d
    by_cases hd : d < 0
    · simp [toFixedTruncate, hd]
    · simp [toFixedTruncate, hd, toFixedMatch, stripSign, fracMatch, withSign]

/-- Witness for C5 (amended): `toFixedTruncate "abc" 2` returns `"abc"`. -/
theorem c5_malformed_amended_witness :
    toFixedTruncate "abc".toList 2 = "abc".toList :=
  c5_malformed_amended.1 'a' "bc".toList 2 (by decide) (by decide) (by decide) (by decide)

/-- **C5 counterexample.** `toFixedTruncate "abc" 2` returns `"abc"` — the
malformed input itself, not `"0"`. -/
theorem c5_counterexample :
    toFixedTruncate "abc".toList 2 = "abc".toList ∧ "abc".toList ≠ "0".toList := by
  exact ⟨by decide, by decide⟩

/-- **C4 (amended).** `formatPrice` passes integer-formatted strings (matching
`/^-?\d+$/` after trimming) through the decimal-string cleanup only; every
other price is truncated to `max(6 − szDecimals, 0)` decimal places and then
to 5 significant figures — a truncation that can also zero out trailing
integer digits: `formatPrice("103948.5", 5) = "103940"`, while
`formatPrice("1234.56", 5) = "1234.5"` and
`formatPrice("0.00012345", 0) = "0.000123"` (decimal-place rule binding). -/
theorem c4_format_price_amended :
    (∀ (s : Str) (sz : ℤ), isIntegerString (jsTrim s) = true →
      formatPrice s sz = some (formatDecimalString (jsTrim s))) ∧
    formatPrice "103948.5".toList 5 = some "103940".toList ∧
    formatPrice "1234.56".toList 5 = some "1234.5".toList ∧
    formatPrice "0.00012345".toList 0 = some "0.000123".toList ∧
    formatPrice "103948".toList 5 = some "103948".toList := by
  refine ⟨?_, by decide, by decide, by decide, by decide⟩
  intro s sz h
  simp [formatPrice, h]

/-- Witness for C4 (amended): the integer-formatted price `"103948"` passes
through as its cleanup. -/
theorem c4_format_price_amended_witness :
    formatPrice "103948".toList 5 = some (formatDecimalString (jsTrim "103948".toList)) :=
  c4_format_price_amended.1 "103948".toList 5 (by decide)

/-- **C4 counterexample.** `formatPrice("103948.5", 5)` is `"103940"`, not the
claimed `"103948"`; and the integer-valued (but not integer-formatted) price
`"103948.0"` is not passed through unchanged either — it is truncated to
`"103940"`. -/
theorem c4_counterexample :
    formatPrice "103948.5".toList 5 = some "103940".toList ∧
    some "103940".toList ≠ some "103948".toList ∧
    formatPrice "103948.0".toList 5 = some "103940".toList ∧
    some "103940".toList ≠ some "103948.0".toList := by
  exact ⟨by decide, by decide, by decide, by decide⟩

/-- **C8.** Decimal truncation is idempotent: truncating a valid decimal
string to `n ≥ 0` decimal places twice gives the same string as truncating
once (`formatDecimals` is `toFixedTruncate`). -/
theorem c8_truncate_idempotent (x : Str) (n : ℤ) (hn : 0 ≤ n) (hv : ValidDecimal x) :
    formatDecimals (formatDecimals x n) n = formatDecimals x n := by
  obtain ⟨neg, I, F, rfl, hI, hId, hF⟩ := hv
  have hnlt : ¬ n < 0 := not_lt.mpr hn
  have hfr : F = [] ∨ ∃ G, F = '.' :: G ∧ ∀ c ∈ G, c.isDigit = true := by
    rcases hF with h | ⟨F', hF', _, hd⟩
    · exact Or.inl h
    · exact Or.inr ⟨F', hF', hd⟩
  have hft := fracTake_shape n.toNat hfr
  obtain ⟨c0, I0, hI0⟩ := List.exists_cons_of_ne_nil hI
  have hne1 : withSign neg (I ++ fracTake F n.toNat) ≠ [] := by
    rw [hI0, List.cons_append]
    exact withSign_ne_nil
  have h1 : formatDecimals (withSign neg (I ++ F)) n =
      formatDecimalString (withSign neg (I ++ fracTake F n.toNat)) := by
    simp only [formatDecimals, toFixedTruncate, hnlt, if_false,
      toFixedMatch_shape neg F n.toNat hI hId hfr]
    rw [if_neg hne1]
  rw [h1, formatDecimalString_shape neg (fracTake F n.toNat) hI hId hft]
  by_cases hcond : neg = true ∧ normInt I = ['0'] ∧ normFrac (fracTake F n.toNat) = []
  · rw [if_pos hcond]
    exact toFixedTruncate_zero_str n hn
  · rw [if_neg hcond]
    have hI₂ : normInt I ≠ [] := normInt_ne_nil I
    have hI₂d : ∀ c ∈ normInt I, c.isDigit = true := normInt_digits hId
    have hfr₂ : normFrac (fracTake F n.toNat) = [] ∨
        ∃ G₁, normFrac (fracTake F n.toNat) = '.' :: G₁ ∧ ∀ c ∈ G₁, c.isDigit = true :=
      normFrac_digits hft
    have htake₂ : fracTake (normFrac (fracTake F n.toNat)) n.toNat
        = normFrac (fracTake F n.toNat) := by
      rcases hfr₂ with h | ⟨G₁, h, _⟩
      · rw [h]
        rfl
      · rw [h]
        show '.' :: G₁.take n.toNat = '.' :: G₁
        obtain ⟨G, hG, hle⟩ := normFrac_length h
        rw [List.take_of_length_le (le_trans hle (fracTake_len hG))]
    obtain ⟨c2, t2, hnI⟩ := List.exists_cons_of_ne_nil hI₂
    have hne₂ : withSign neg (normInt I ++ normFrac (fracTake F n.toNat)) ≠ [] := by
      rw [hnI, List.cons_append]
      exact withSign_ne_nil
    have h2 : formatDecimals (withSign neg (normInt I ++ normFrac (fracTake F n.toNat))) n
        = formatDecimalString (withSign neg (normInt I ++ normFrac (fracTake F n.toNat))) := by
      simp only [formatDecimals, toFixedTruncate, hnlt, if_false,
        toFixedMatch_shape neg (normFrac (fracTake F n.toNat)) n.toNat hI₂ hI₂d hfr₂,
        htake₂]
      rw [if_neg hne₂]
    rw [h2, formatDecimalString_shape neg (normFrac (fracTake F n.toNat)) hI₂ hI₂d hfr₂,
      normInt_idem, normFrac_idem, if_neg hcond]

/-- Witness for C8: truncating `"12.345"` to two decimals twice yields
`"12.34"`, the same as truncating once. -/
theorem c8_truncate_idempotent_witness :
    formatDecimals (formatDecimals "12.345".toList 2) 2 = formatDecimals "12.345".toList 2 :=
  c8_truncate_idempotent "12.345".toList 2 (by norm_num)
    ⟨false, ['1', '2'], ['.', '3', '4', '5'], rfl, by decide, by decide,
      Or.inr ⟨['3', '4', '5'], rfl, by decide, by decide⟩⟩

end PerpFolio
